import Mathlib

/-!
Verification development for the markdown table editor.

The functions below are shallow embeddings of the TypeScript sources:
`src/markdownParser.ts` (parseMarkdownTable, generateMarkdownTable,
findTableAtPosition) and `src/webview/TableEditor.tsx` (handleCellChange,
addRow, addColumn, removeRow, removeColumn, duplicateRow, updateRowNumbers,
and the cell line-break token substitution).  Strings are modelled as their
underlying lists of characters where character-level processing happens;
grids are lists of lists of strings, row 0 being the header.
-/

namespace MdTable

/-- Characters stripped by JavaScript `String.prototype.trim`
(ASCII whitespace, line terminators, and the Unicode space characters). -/
def isJsWs (c : Char) : Bool :=
  c = ' ' || c = '\t' || c = '\n' || c = '\r' || c = '\x0b' || c = '\x0c' ||
  c = ' ' || c = ' ' ||
  (' ' ≤ c && c ≤ ' ') ||
  c = ' ' || c = ' ' || c = ' ' || c = ' ' ||
  c = '　' || c = '﻿'

/-- The `text.trim()` of the source on the character list: drop JS whitespace
from both ends. -/
def trimChars (l : List Char) : List Char :=
  ((l.dropWhile isJsWs).reverse.dropWhile isJsWs).reverse

/-- The `text.trim()` of the source at the `String` level. -/
def jsTrim (s : String) : String :=
  String.mk (trimChars s.data)

/-- Worker for `text.split(/\r?\n/)`: a line break is a `\n`, optionally
consuming one `\r` immediately before it; a lone `\r` is ordinary text.
The `\r` of a `\r\n` pair belongs to the separator, so it is skipped and the
following `\n` performs the split. -/
def splitLinesAux : List Char → List Char → List (List Char)
  | [], acc => [acc.reverse]
  | c :: rest, acc =>
    if c = '\n' then acc.reverse :: splitLinesAux rest []
    else if c = '\r' ∧ rest.head? = some '\n' then
      splitLinesAux rest acc
    else splitLinesAux rest (c :: acc)

/-- The `text.split(/\r?\n/)` of `markdownParser.ts`. -/
def splitLines (l : List Char) : List (List Char) :=
  splitLinesAux l []

/-- Worker for `line.split('|')`. -/
def splitPipeAux : List Char → List Char → List (List Char)
  | [], acc => [acc.reverse]
  | c :: rest, acc =>
    if c = '|' then acc.reverse :: splitPipeAux rest []
    else splitPipeAux rest (c :: acc)

/-- The `line.split('|')` of `parseMarkdownTable`. -/
def splitPipe (l : List Char) : List (List Char) :=
  splitPipeAux l []

/-- One line of `parseMarkdownTable`: split on pipes, trim each cell, then
drop the first segment when the trimmed line starts with a pipe and the last
segment when it ends with a pipe (`cells.shift()` / `cells.pop()`). -/
def parseLine (line : List Char) : List String :=
  let cells := (splitPipe line).map (fun c => String.mk (trimChars c))
  let t := trimChars line
  let cells := if t.head? = some '|' then cells.tail else cells
  if t.getLast? = some '|' then cells.dropLast else cells

/-- The separator-cell test `cell.match(/^[-:]+$/)` of `parseMarkdownTable`:
a non-empty string made only of hyphens and colons. -/
def isSepCell (s : String) : Bool :=
  !s.data.isEmpty && s.data.all (fun c => c = '-' || c = ':')

/-- The `parseMarkdownTable` of `markdownParser.ts`. -/
def parseMarkdownTable (text : String) : List (List String) :=
  let lines := splitLines (trimChars text.data)
  if lines.length < 2 then []
  else
    let rows := lines.map parseLine
    if 1 < rows.length ∧ (rows.getD 1 []).all isSepCell then rows.eraseIdx 1
    else rows

/-- The `array.map((x, i) => f(x, i))` idiom: map with the element index,
starting from a given index. -/
def mapWithIndex (f : Nat → α → β) : Nat → List α → List β
  | _, [] => []
  | i, a :: as => f i a :: mapWithIndex f (i + 1) as

/-- One step of the width scan of `generateMarkdownTable`: for each index `i`
with `i < colWidths.length` and a cell present, `colWidths[i] =
Math.max(colWidths[i], cell.length)`. -/
def updateRowWidths : List Nat → List (List Char) → List Nat
  | ws, [] => ws
  | [], _ => []
  | w :: ws, c :: cs => max w c.length :: updateRowWidths ws cs

/-- The column widths of `generateMarkdownTable`: start from zeros (one per
header cell), fold the width scan over all rows, then raise each to the
minimum of 3 (`colWidths[i] = Math.max(colWidths[i], 3)`). -/
def computeColWidths (data : List (List (List Char))) : List Nat :=
  (data.foldl updateRowWidths (List.replicate (data.headD []).length 0)).map
    (fun w => max w 3)

/-- `cell.padEnd(w)`: append spaces up to width `w` (no-op when already at
least that long). -/
def padEndC (s : List Char) (w : Nat) : List Char :=
  s ++ List.replicate (w - s.length) ' '

/-- `array.join(sep)` on character lists. -/
def joinSepC (sep : List Char) : List (List Char) → List Char
  | [] => []
  | [x] => x
  | x :: y :: xs => x ++ sep ++ joinSepC sep (y :: xs)

/-- The `formatRow` closure of `generateMarkdownTable`:
`'| ' + row.map((cell, i) => cell.padEnd(colWidths[i] || 0)).join(' | ') + ' |'`. -/
def formatRowC (ws : List Nat) (row : List (List Char)) : List Char :=
  ['|', ' '] ++
    joinSepC [' ', '|', ' ']
      (mapWithIndex (fun i cell => padEndC cell (ws.getD i 0)) 0 row) ++
    [' ', '|']

/-- The body of `generateMarkdownTable` over character lists: header row,
separator row of hyphens, then the data rows, each newline-terminated. -/
def generateChars (data : List (List (List Char))) : List Char :=
  if data.length = 0 then []
  else
    let ws := computeColWidths data
    let sep := ws.map (fun w => List.replicate w '-')
    formatRowC ws (data.headD []) ++ ['\n'] ++
      (['|', ' '] ++ joinSepC [' ', '|', ' '] sep ++ [' ', '|']) ++ ['\n'] ++
      (data.tail.map (fun r => formatRowC ws r ++ ['\n'])).flatten

/-- The `generateMarkdownTable` of `markdownParser.ts`. -/
def generateMarkdownTable (data : List (List String)) : String :=
  String.mk (generateChars (data.map (fun row => row.map String.data)))

/-- The `line.trim().includes('|')` test of `findTableAtPosition`. -/
def hasPipeLine (l : List Char) : Bool :=
  (trimChars l).contains '|'

/-- The upward expansion loop of `findTableAtPosition`: decrement `startLine`
while it is positive and the preceding line contains a pipe. -/
def expandUp (lines : List (List Char)) : Nat → Nat
  | 0 => 0
  | n + 1 => if hasPipeLine (lines.getD n []) then expandUp lines n else n + 1

/-- Worker for the downward expansion loop of `findTableAtPosition`.  The
fuel argument only bounds the number of iterations; with fuel
`lines.length - e` it never runs out before the loop condition fails. -/
def expandDownAux (lines : List (List Char)) : Nat → Nat → Nat
  | 0, e => e
  | fuel + 1, e =>
    if e + 1 < lines.length ∧ hasPipeLine (lines.getD (e + 1) []) then
      expandDownAux lines fuel (e + 1)
    else e

/-- The downward expansion loop of `findTableAtPosition`: increment `endLine`
while the following line exists and contains a pipe. -/
def expandDown (lines : List (List Char)) (e : Nat) : Nat :=
  expandDownAux lines (lines.length - e) e

/-- The record returned by `findTableAtPosition`. -/
structure TableInfo where
  startLine : Nat
  endLine : Nat
  content : String
  deriving DecidableEq, Repr

/-- `lines.slice(s, e + 1).join('\n')` over character lists. -/
def joinNL : List (List Char) → List Char
  | [] => []
  | [x] => x
  | x :: y :: xs => x ++ '\n' :: joinNL (y :: xs)

/-- The `findTableAtPosition` of `markdownParser.ts`.  The caller must supply
a valid `lineIndex` (the source would fault on an out-of-range index). -/
def findTableAtPosition (documentText : String) (lineIndex : Nat) :
    Option TableInfo :=
  let lines := splitLines documentText.data
  if hasPipeLine (lines.getD lineIndex []) = false then none
  else
    let s := expandUp lines lineIndex
    let e := expandDown lines lineIndex
    some ⟨s, e, String.mk (joinNL ((lines.drop s).take (e + 1 - s)))⟩

/-- The storage substitution of `handleCellChange`:
`value.replace(/\n/g, '<br>')`. -/
def storeSub : List Char → List Char
  | [] => []
  | c :: rest =>
    if c = '\n' then '<' :: 'b' :: 'r' :: '>' :: storeSub rest
    else c :: storeSub rest

/-- Worker for the display substitution, scanning left to right without
overlap.  The fuel argument only bounds the number of steps; with fuel
`l.length` it never runs out before the list is consumed. -/
def displaySubAux : Nat → List Char → List Char
  | 0, l => l
  | _, [] => []
  | fuel + 1, c :: rest =>
    if c = '<' ∧ rest.take 3 = ['b', 'r', '>'] then
      '\n' :: displaySubAux fuel (rest.drop 3)
    else c :: displaySubAux fuel rest

/-- The display substitution of the cell renderer:
`cell.replace(/<br>/g, '\n')`. -/
def displaySub (l : List Char) : List Char :=
  displaySubAux l.length l

/-- Whether a character list contains the literal token `<br>`. -/
def hasBrToken : List Char → Bool
  | [] => false
  | c :: rest =>
    (c = '<' ∧ rest.take 3 = ['b', 'r', '>']) || hasBrToken rest

/-- `value.replace(/\n/g, '<br>')` at the `String` level. -/
def storeCell (s : String) : String := String.mk (storeSub s.data)

/-- `cell.replace(/<br>/g, '\n')` at the `String` level. -/
def displayCell (s : String) : String := String.mk (displaySub s.data)

/-- Grid rectangularity: every row has the column count of the header row. -/
def Rect (data : List (List String)) : Prop :=
  ∀ row ∈ data, row.length = (data.headD []).length

instance (data : List (List String)) : Decidable (Rect data) :=
  inferInstanceAs (Decidable (∀ row ∈ data, row.length = (data.headD []).length))

/-- `Math.min(Math.max(insertIndex, 0), count)` of `addRow` / `addColumn`. -/
def clampIdx (i : Int) (n : Nat) : Nat :=
  (min (max i 0) (n : Int)).toNat

/-- The `handleCellChange` of `TableEditor.tsx`: no-op on the derived row
number column, otherwise store the value with line breaks replaced by the
internal token.  Indices come from the rendered grid, hence are in range. -/
def handleCellChange (isRowIndexColumn : Bool) (data : List (List String))
    (rowIndex colIndex : Nat) (value : String) : List (List String) :=
  if isRowIndexColumn = true ∧ colIndex = 0 ∧ 0 < rowIndex then data
  else data.set rowIndex ((data.getD rowIndex []).set colIndex (storeCell value))

/-- The `addRow` of `TableEditor.tsx`: insert a row of empty cells at the
clamped index derived from the active cell (append when none).  When the row
number column is on the source re-assigns an empty string to the new row's
first cell, which is already empty. -/
def addRow (activeCell : Option (Nat × Nat)) (indexOffset : Int)
    (data : List (List String)) : List (List String) :=
  let insertIndex : Int :=
    match activeCell with
    | some a => (a.1 : Int) + indexOffset
    | none => data.length
  data.insertIdx (clampIdx insertIndex data.length)
    (List.replicate (data.headD []).length "")

/-- The `addColumn` of `TableEditor.tsx`: insert an empty cell in every row
at the clamped index derived from the active cell (append when none). -/
def addColumn (activeCell : Option (Nat × Nat)) (indexOffset : Int)
    (data : List (List String)) : List (List String) :=
  let insertIndex : Int :=
    match activeCell with
    | some a => (a.2 : Int) + indexOffset
    | none => (data.headD []).length
  data.map (fun row => row.insertIdx (clampIdx insertIndex row.length) "")

/-- `array.filter((_, i) => i !== index)` with the running position as an
extra argument. -/
def filterOutIdx (index : Nat) : Nat → List α → List α
  | _, [] => []
  | i, a :: as =>
    if i = index then filterOutIdx index (i + 1) as
    else a :: filterOutIdx index (i + 1) as

/-- The `removeRow` of `TableEditor.tsx`: no-op when at most one row remains,
otherwise filter out the row at `index`. -/
def removeRow (data : List (List String)) (index : Nat) : List (List String) :=
  if data.length ≤ 1 then data else filterOutIdx index 0 data

/-- The `removeColumn` of `TableEditor.tsx`: no-op when at most one column
remains, otherwise filter the cell at `index` out of every row. -/
def removeColumn (data : List (List String)) (index : Nat) :
    List (List String) :=
  if (data.headD []).length ≤ 1 then data
  else data.map (fun row => filterOutIdx index 0 row)

/-- The `duplicateRow` of `TableEditor.tsx`: insert a copy of the row at
`rowIndex` immediately below it. -/
def duplicateRow (data : List (List String)) (rowIndex : Nat) :
    List (List String) :=
  data.insertIdx (rowIndex + 1) (data.getD rowIndex [])

/-- `newRow[0] = String(index)` on a copied row: JavaScript assignment to
index 0 overwrites the first element, or creates it on an empty array. -/
def jsAssign0 (row : List String) (v : String) : List String :=
  match row with
  | [] => [v]
  | _ :: t => v :: t

/-- The `updateRowNumbers` of `TableEditor.tsx`: leave the header row alone
and overwrite column 0 of every data row with its 1-based row number. -/
def updateRowNumbers (data : List (List String)) : List (List String) :=
  mapWithIndex
    (fun i row => if i = 0 then row else jsAssign0 row (toString i)) 0 data

/-! ### Properties of `trimChars` -/

theorem dropWhile_ws_head (l : List Char) :
    ∀ x, (l.dropWhile isJsWs).head? = some x → isJsWs x = false := by
  intro x hx
  have h := List.head?_dropWhile_not isJsWs l
  rw [hx] at h
  exact h

theorem getLast?_dropWhile (p : α → Bool) : ∀ l : List α,
    l.dropWhile p ≠ [] → (l.dropWhile p).getLast? = l.getLast?
  | [] => by simp
  | a :: l => by
    intro h
    by_cases hp : p a
    · rw [List.dropWhile_cons_of_pos hp] at h ⊢
      have hl : l ≠ [] := by
        rintro rfl
        exact h rfl
      rw [getLast?_dropWhile p l h]
      cases l with
      | nil => exact absurd rfl hl
      | cons b t => rw [List.getLast?_cons_cons]
    · rw [List.dropWhile_cons_of_neg hp]

theorem trimChars_eq_self (l : List Char)
    (h1 : ∀ x, l.head? = some x → isJsWs x = false)
    (h2 : ∀ x, l.getLast? = some x → isJsWs x = false) :
    trimChars l = l := by
  have hd : l.dropWhile isJsWs = l := by
    cases l with
    | nil => rfl
    | cons a t =>
      have := h1 a rfl
      simp [List.dropWhile_cons, this]
  unfold trimChars
  rw [hd]
  have hr : l.reverse.dropWhile isJsWs = l.reverse := by
    cases hrev : l.reverse with
    | nil => rfl
    | cons a t =>
      have ha : l.getLast? = some a := by
        rw [← List.head?_reverse, hrev]; rfl
      have := h2 a ha
      simp [List.dropWhile_cons, this]
  rw [hr, List.reverse_reverse]

theorem trimChars_ws_affix (pre s post : List Char)
    (hpre : ∀ x ∈ pre, isJsWs x = true) (hpost : ∀ x ∈ post, isJsWs x = true) :
    trimChars (pre ++ s ++ post) = trimChars s := by
  unfold trimChars
  rw [List.append_assoc, List.dropWhile_append_of_pos hpre, List.dropWhile_append]
  by_cases hs : (s.dropWhile isJsWs).isEmpty
  · rw [if_pos hs]
    have hpost0 : post.dropWhile isJsWs = [] :=
      List.dropWhile_eq_nil_iff.mpr hpost
    have hs0 : s.dropWhile isJsWs = [] := by
      cases h0 : s.dropWhile isJsWs with
      | nil => rfl
      | cons a t => rw [h0] at hs; simp [List.isEmpty] at hs
    rw [hpost0, hs0]
  · rw [if_neg hs, List.reverse_append,
      List.dropWhile_append_of_pos
        (by intro a ha; exact hpost a (List.mem_reverse.mp ha))]

theorem trimChars_head? (l : List Char) :
    ∀ x, (trimChars l).head? = some x → isJsWs x = false := by
  intro x hx
  unfold trimChars at hx
  rw [List.head?_reverse] at hx
  have hne : (l.dropWhile isJsWs).reverse.dropWhile isJsWs ≠ [] := by
    intro h0; rw [h0] at hx; simp at hx
  rw [getLast?_dropWhile _ _ hne, List.getLast?_reverse] at hx
  exact dropWhile_ws_head l x hx

theorem trimChars_getLast? (l : List Char) :
    ∀ x, (trimChars l).getLast? = some x → isJsWs x = false := by
  intro x hx
  unfold trimChars at hx
  rw [List.getLast?_reverse] at hx
  have h := List.head?_dropWhile_not isJsWs ((l.dropWhile isJsWs).reverse)
  rw [hx] at h
  exact h

theorem trimChars_idem (l : List Char) : trimChars (trimChars l) = trimChars l :=
  trimChars_eq_self _ (trimChars_head? l) (trimChars_getLast? l)

/-! ### Line splitting -/

theorem splitLinesAux_length : ∀ (l acc : List Char),
    (splitLinesAux l acc).length = 1 + l.count '\n'
  | [], acc => by simp [splitLinesAux]
  | c :: rest, acc => by
    rw [splitLinesAux]
    by_cases h1 : c = '\n'
    · rw [if_pos h1]
      simp [splitLinesAux_length rest [], List.count_cons, h1]
      omega
    · rw [if_neg h1]
      by_cases h2 : c = '\r' ∧ rest.head? = some '\n'
      · rw [if_pos h2, splitLinesAux_length rest acc, List.count_cons]
        simp [h1]
      · rw [if_neg h2, splitLinesAux_length rest (c :: acc), List.count_cons]
        simp [h1]

theorem splitLines_length (l : List Char) :
    (splitLines l).length = 1 + l.count '\n' :=
  splitLinesAux_length l []

theorem count_trimChars_le (l : List Char) (a : Char) :
    (trimChars l).count a ≤ l.count a := by
  unfold trimChars
  rw [List.count_reverse]
  have h1 :=
    (List.dropWhile_sublist (p := isJsWs)
      (l := (l.dropWhile isJsWs).reverse)).count_le a
  rw [List.count_reverse] at h1
  have h2 := (List.dropWhile_sublist (p := isJsWs) (l := l)).count_le a
  omega

/-- C6: an input that splits into fewer than two lines decodes to the empty
grid.  The source trims first, but trimming cannot increase the number of
line breaks. -/
theorem C6_short_input (text : String)
    (h : (splitLines text.data).length < 2) : parseMarkdownTable text = [] := by
  have hc : text.data.count '\n' = 0 := by
    have := splitLines_length text.data
    omega
  have ht : (trimChars text.data).count '\n' = 0 := by
    have := count_trimChars_le text.data '\n'
    omega
  have hlen : (splitLines (trimChars text.data)).length < 2 := by
    rw [splitLines_length]; omega
  simp only [parseMarkdownTable]
  rw [if_pos hlen]

/-- Witness for C6 at the single-line input `"| a |"`. -/
theorem C6_short_input_witness :
    (splitLines ("| a |" : String).data).length < 2 ∧
      parseMarkdownTable "| a |" = [] :=
  ⟨by decide, C6_short_input _ (by decide)⟩

/-- C10: decoding is invariant under trimming the input, because the source
trims before splitting and `trim` is idempotent; in particular a single table
line followed by a newline decodes to the empty grid. -/
theorem C10_trim_invariant :
    (∀ text : String, parseMarkdownTable (jsTrim text) = parseMarkdownTable text) ∧
      parseMarkdownTable "| a | b |\n" = [] := by
  constructor
  · intro text
    have h : trimChars (jsTrim text).data = trimChars text.data := by
      show trimChars (trimChars text.data) = trimChars text.data
      exact trimChars_idem _
    simp only [parseMarkdownTable, h]
  · decide

/-! ### The internal line-break token -/

theorem take3_eq (u : List α) (x y z : α) (h : u.take 3 = [x, y, z]) :
    ∃ m, u = x :: y :: z :: m := by
  match u with
  | [] => simp at h
  | [a] => simp at h
  | [a, b] => simp at h
  | a :: b :: c :: m =>
    simp only [List.take_succ_cons, List.take_zero, List.cons.injEq,
      and_true] at h
    obtain ⟨h1, h2, h3⟩ := h
    exact ⟨m, by rw [h1, h2, h3]⟩

theorem storeSub_cons_inv (c : Char) (hc1 : c ≠ '\n') (hc2 : c ≠ '<') :
    ∀ l m, storeSub l = c :: m → ∃ l1, l = c :: l1 ∧ storeSub l1 = m := by
  intro l m h
  match l with
  | [] => simp [storeSub] at h
  | a :: l1 =>
    simp only [storeSub] at h
    by_cases ha : a = '\n'
    · rw [if_pos ha] at h
      cases h
      exact absurd rfl hc2
    · rw [if_neg ha] at h
      cases h
      exact ⟨l1, rfl, rfl⟩

theorem storeSub_take3 (l : List Char)
    (h : (storeSub l).take 3 = ['b', 'r', '>']) : l.take 3 = ['b', 'r', '>'] := by
  obtain ⟨m, hm⟩ := take3_eq _ _ _ _ h
  obtain ⟨l1, rfl, h1⟩ := storeSub_cons_inv 'b' (by decide) (by decide) l _ hm
  obtain ⟨l2, rfl, h2⟩ := storeSub_cons_inv 'r' (by decide) (by decide) l1 _ h1
  obtain ⟨l3, rfl, -⟩ := storeSub_cons_inv '>' (by decide) (by decide) l2 _ h2
  rfl

theorem display_store_of_no_token : ∀ (l : List Char),
    hasBrToken l = false → ∀ fuel, (storeSub l).length ≤ fuel →
      displaySubAux fuel (storeSub l) = l
  | [], _, fuel, _ => by cases fuel <;> simp [storeSub, displaySubAux]
  | c :: rest, h, fuel, hfuel => by
    simp only [hasBrToken, Bool.or_eq_false_iff] at h
    obtain ⟨htok, hrest⟩ := h
    by_cases hc : c = '\n'
    · rw [storeSub, if_pos hc] at hfuel ⊢
      match fuel, hfuel with
      | f + 1, hfuel => ?_
      simp only [displaySubAux]
      split
      · show '\n' :: displaySubAux f (storeSub rest) = c :: rest
        rw [display_store_of_no_token rest hrest f (by simp at hfuel; omega), hc]
      · rename_i hcond
        exact absurd (by simp) hcond
    · rw [storeSub, if_neg hc] at hfuel ⊢
      match fuel, hfuel with
      | f + 1, hfuel => ?_
      simp only [displaySubAux]
      rw [if_neg ?_]
      · rw [display_store_of_no_token rest hrest f (by simp at hfuel; omega)]
      · rintro ⟨rfl, htake⟩
        have h3 := storeSub_take3 rest htake
        exact (by simpa using htok :
          ¬('<' = '<' ∧ rest.take 3 = ['b', 'r', '>'])) ⟨rfl, h3⟩

/-- C2 counterexample: the token does collide with literal user content.
Typing the literal text `<br>` (no line break) stores it unchanged, and the
external display then renders it as a line break, not as the typed text. -/
theorem C2_token_collision :
    displayCell (storeCell "<br>") = "\n" ∧ ("\n" : String) ≠ "<br>" := by
  constructor
  · decide
  · decide

/-- C2 (amended): for every typed string that does not already contain the
literal character sequence `<br>`, substituting the token for line breaks on
storage (`handleCellChange`) and reversing it on display yields back exactly
the typed string. -/
theorem C2_token_roundtrip (s : String) (h : hasBrToken s.data = false) :
    displayCell (storeCell s) = s := by
  show String.mk (displaySubAux (storeSub s.data).length (storeSub s.data)) = s
  rw [display_store_of_no_token s.data h _ le_rfl]

/-- Witness for C2 at the multi-line cell text `"a\nb"`. -/
theorem C2_token_roundtrip_witness :
    hasBrToken ("a\nb" : String).data = false ∧
      displayCell (storeCell "a\nb") = "a\nb" :=
  ⟨by decide, C2_token_roundtrip _ (by decide)⟩

/-! ### Indexed map -/

theorem mapWithIndex_get? (f : Nat → α → β) : ∀ (l : List α) (s j : Nat),
    (mapWithIndex f s l).get? j = (l.get? j).map (f (s + j))
  | [], s, j => by simp [mapWithIndex]
  | a :: l, s, 0 => by simp [mapWithIndex]
  | a :: l, s, j + 1 => by
    have h1 : (mapWithIndex f s (a :: l)).get? (j + 1) =
        (mapWithIndex f (s + 1) l).get? j := rfl
    have h2 : (a :: l).get? (j + 1) = l.get? j := rfl
    rw [h1, h2, mapWithIndex_get? f l (s + 1) j,
      show s + 1 + j = s + (j + 1) from by omega]

theorem mapWithIndex_length (f : Nat → α → β) : ∀ (l : List α) (s : Nat),
    (mapWithIndex f s l).length = l.length
  | [], _ => rfl
  | a :: l, s => by simp [mapWithIndex, mapWithIndex_length f l (s + 1)]

/-! ### Row numbering -/

theorem jsAssign0_idem (row : List String) (v : String) :
    jsAssign0 (jsAssign0 row v) v = jsAssign0 row v := by
  cases row <;> rfl

/-- C9: `updateRowNumbers` leaves the header row untouched, overwrites
column 0 of each data row `i` with the string of its 1-based row number
while keeping the other cells, and is idempotent (recomputing on an
already-correct grid produces an equal grid, so the change guard in the
source suppresses a redundant notification). -/
theorem C9_row_numbers :
    (∀ data : List (List String), (updateRowNumbers data).head? = data.head?) ∧
    (∀ (data : List (List String)) (i : Nat), 1 ≤ i →
      (updateRowNumbers data).get? i =
        (data.get? i).map (fun row => jsAssign0 row (toString i))) ∧
    (∀ data : List (List String),
      updateRowNumbers (updateRowNumbers data) = updateRowNumbers data) ∧
    updateRowNumbers [["H", "x"], ["p", "q"], ["r", "s"]] =
      [["H", "x"], ["1", "q"], ["2", "s"]] := by
  refine ⟨?_, ?_, ?_, by decide⟩
  · intro data
    cases data with
    | nil => rfl
    | cons r t => simp [updateRowNumbers, mapWithIndex]
  · intro data i hi
    rw [updateRowNumbers, mapWithIndex_get? _ data 0 i]
    cases data.get? i with
    | none => rfl
    | some row =>
      have hi0 : i ≠ 0 := by omega
      simp [hi0]
  · intro data
    apply List.ext_get?
    intro n
    rw [updateRowNumbers, updateRowNumbers,
      mapWithIndex_get? _ _ 0 n, mapWithIndex_get? _ data 0 n]
    cases data.get? n with
    | none => rfl
    | some row =>
      by_cases hn : n = 0
      · simp [hn]
      · simp [hn, jsAssign0_idem]

/-- Witness for C9 at a 1-header, 1-data-row grid and data row index 1. -/
theorem C9_row_numbers_witness :
    (1 : Nat) ≤ 1 ∧
      (updateRowNumbers [["H"], ["a"]]).get? 1 =
        (([["H"], ["a"]] : List (List String)).get? 1).map
          (fun row => jsAssign0 row (toString 1)) :=
  ⟨le_rfl, C9_row_numbers.2.1 _ 1 le_rfl⟩

/-! ### Grid mutations -/

theorem clampIdx_le (i : Int) (n : Nat) : clampIdx i n ≤ n := by
  unfold clampIdx
  have h1 : min (max i 0) (n : Int) ≤ (n : Int) := min_le_right _ _
  omega

theorem filterOutIdx_small (index : Nat) : ∀ (l : List α) (s : Nat),
    index < s → filterOutIdx index s l = l
  | [], _, _ => rfl
  | a :: as, s, h => by
    rw [filterOutIdx, if_neg (by omega),
      filterOutIdx_small index as (s + 1) (by omega)]

theorem filterOutIdx_eraseIdx : ∀ (l : List α) (s j : Nat),
    filterOutIdx (s + j) s l = l.eraseIdx j
  | [], _, _ => by simp [filterOutIdx, List.eraseIdx]
  | a :: as, s, 0 => by
    rw [filterOutIdx, if_pos (by omega),
      filterOutIdx_small (s + 0) as (s + 1) (by omega)]
    rfl
  | a :: as, s, j + 1 => by
    rw [filterOutIdx, if_neg (by omega),
      show s + (j + 1) = (s + 1) + j from by omega,
      filterOutIdx_eraseIdx as (s + 1) j]
    rfl

theorem filterOutIdx_zero (l : List α) (j : Nat) :
    filterOutIdx j 0 l = l.eraseIdx j := by
  have h := filterOutIdx_eraseIdx l 0 j
  rwa [Nat.zero_add] at h

theorem map_insertCol_rect (data : List (List String)) (idx : Int)
    (h : Rect data) :
    Rect (data.map (fun row => row.insertIdx (clampIdx idx row.length) "")) := by
  cases data with
  | nil => intro r hr; simp at hr
  | cons a t =>
    intro r hr
    obtain ⟨row, hrowmem, rfl⟩ := List.mem_map.mp hr
    rw [List.map_cons, List.headD_cons,
      List.length_insertIdx _ _ (clampIdx_le _ _),
      List.length_insertIdx _ _ (clampIdx_le _ _),
      h row hrowmem, List.headD_cons]

theorem insertIdx_rect (data : List (List String)) (k : Nat)
    (row : List String) (hk : k ≤ data.length)
    (hrow : row.length = (data.headD []).length) (h : Rect data) :
    Rect (data.insertIdx k row) := by
  have hhead : ((data.insertIdx k row).headD []).length =
      (data.headD []).length := by
    cases k with
    | zero => rw [List.insertIdx_zero]; exact hrow
    | succ m =>
      cases data with
      | nil => simp at hk
      | cons a t => rw [List.insertIdx_succ_cons]; rfl
  intro r hr
  rw [hhead]
  rcases (List.mem_insertIdx hk).mp hr with rfl | hr2
  · exact hrow
  · exact h r hr2

theorem eraseIdx_rect (data : List (List String)) (i : Nat)
    (hlen : 2 ≤ data.length) (h : Rect data) : Rect (data.eraseIdx i) := by
  have hhead : ((data.eraseIdx i).headD []).length =
      (data.headD []).length := by
    match data, hlen with
    | a :: b :: t, _ =>
      cases i with
      | zero =>
        show ((b :: t).headD []).length = a.length
        exact h b (by simp)
      | succ m => rfl
  intro r hr
  rw [hhead]
  exact h r ((data.eraseIdx_sublist i).subset hr)

theorem set_row_rect (data : List (List String)) (r : Nat)
    (newRow : List String) (h : Rect data)
    (hlen : newRow.length = (data.getD r []).length) :
    Rect (data.set r newRow) := by
  by_cases hr : r < data.length
  · have hmem : data.getD r [] ∈ data := by
      rw [List.getD_eq_getElem _ _ hr]
      exact List.getElem_mem hr
    have hH : newRow.length = (data.headD []).length := by
      rw [hlen]; exact h _ hmem
    have hhead : ((data.set r newRow).headD []).length =
        (data.headD []).length := by
      cases data with
      | nil => rfl
      | cons a t =>
        cases r with
        | zero => rw [List.set_cons_zero]; exact hH
        | succ m => rw [List.set_cons_succ]; rfl
    intro row hrow
    rw [hhead]
    rcases List.mem_or_eq_of_mem_set hrow with h1 | rfl
    · exact h row h1
    · exact hH
  · rw [List.set_eq_of_length_le (by omega)]
    exact h

/-- C8: `removeRow` is a no-op on a one-row grid and `removeColumn` on a
one-column grid; with at least two rows (columns) they delete the indicated
row (the indicated column from every row); and every mutation operation
applied to a rectangular grid returns a rectangular grid. -/
theorem C8_mutations :
    (∀ (data : List (List String)) (i : Nat), data.length = 1 →
      removeRow data i = data) ∧
    (∀ (data : List (List String)) (i : Nat), (data.headD []).length = 1 →
      removeColumn data i = data) ∧
    (∀ (data : List (List String)) (i : Nat), 2 ≤ data.length →
      removeRow data i = data.eraseIdx i) ∧
    (∀ (data : List (List String)) (i : Nat), 2 ≤ (data.headD []).length →
      removeColumn data i = data.map (fun row => row.eraseIdx i)) ∧
    (∀ (data : List (List String)) (active : Option (Nat × Nat)) (off : Int),
      Rect data → Rect (addRow active off data)) ∧
    (∀ (data : List (List String)) (active : Option (Nat × Nat)) (off : Int),
      Rect data → Rect (addColumn active off data)) ∧
    (∀ (data : List (List String)) (i : Nat),
      Rect data → Rect (removeRow data i)) ∧
    (∀ (data : List (List String)) (i : Nat),
      Rect data → Rect (removeColumn data i)) ∧
    (∀ (data : List (List String)) (i : Nat), i < data.length →
      Rect data → Rect (duplicateRow data i)) ∧
    (∀ (data : List (List String)) (b : Bool) (r c : Nat) (v : String),
      Rect data → Rect (handleCellChange b data r c v)) := by
  have hremoveRow : ∀ (data : List (List String)) (i : Nat),
      2 ≤ data.length → removeRow data i = data.eraseIdx i := by
    intro data i hlen
    rw [removeRow, if_neg (by omega)]
    exact filterOutIdx_zero data i
  have hremoveCol : ∀ (data : List (List String)) (i : Nat),
      2 ≤ (data.headD []).length →
        removeColumn data i = data.map (fun row => row.eraseIdx i) := by
    intro data i hlen
    rw [removeColumn, if_neg (by omega)]
    exact List.map_congr_left (fun row _ => filterOutIdx_zero row i)
  refine ⟨?_, ?_, hremoveRow, hremoveCol, ?_, ?_, ?_, ?_, ?_, ?_⟩
  · intro data i hlen
    rw [removeRow, if_pos (by omega)]
  · intro data i hlen
    rw [removeColumn, if_pos (by omega)]
  · intro data active off h
    exact insertIdx_rect data _ _ (clampIdx_le _ _) (by simp) h
  · intro data active off h
    exact map_insertCol_rect data _ h
  · intro data i h
    by_cases hlen : data.length ≤ 1
    · rw [removeRow, if_pos hlen]; exact h
    · rw [hremoveRow data i (by omega)]
      exact eraseIdx_rect data i (by omega) h
  · intro data i h
    by_cases hlen : (data.headD []).length ≤ 1
    · rw [removeColumn, if_pos hlen]; exact h
    · rw [hremoveCol data i (by omega)]
      intro r hr
      obtain ⟨row, hrowmem, rfl⟩ := List.mem_map.mp hr
      cases data with
      | nil => simp at hrowmem
      | cons a t =>
        show (row.eraseIdx i).length = (a.eraseIdx i).length
        rw [List.length_eraseIdx, List.length_eraseIdx,
          h row hrowmem, List.headD_cons]
  · intro data i hi h
    have hmem : data.getD i [] ∈ data := by
      rw [List.getD_eq_getElem _ _ hi]
      exact List.getElem_mem hi
    exact insertIdx_rect data _ _ (by omega) (h _ hmem) h
  · intro data b r c v h
    rw [handleCellChange]
    by_cases hguard : b = true ∧ c = 0 ∧ 0 < r
    · rw [if_pos hguard]; exact h
    · rw [if_neg hguard]
      exact set_row_rect data r _ h (List.length_set _ _ _)

/-- Witness for C8: each conjunct applied at a concrete grid. -/
theorem C8_mutations_witness :
    removeRow [["a"]] 0 = [["a"]] ∧
    removeColumn [["a"], ["b"]] 0 = [["a"], ["b"]] ∧
    removeRow [["a"], ["b"]] 1 = [["a"]] ∧
    removeColumn [["a", "b"]] 0 = [["b"]] ∧
    Rect (addRow (some (0, 0)) 1 [["a", "b"], ["c", "d"]]) ∧
    Rect (addColumn (some (0, 0)) 1 [["a", "b"], ["c", "d"]]) ∧
    Rect (removeRow [["a", "b"], ["c", "d"]] 0) ∧
    Rect (removeColumn [["a", "b"], ["c", "d"]] 0) ∧
    Rect (duplicateRow [["a", "b"], ["c", "d"]] 1) ∧
    Rect (handleCellChange false [["a", "b"], ["c", "d"]] 1 1 "x\ny") := by
  refine ⟨C8_mutations.1 _ 0 (by decide),
    C8_mutations.2.1 _ 0 (by decide),
    ?_, ?_,
    C8_mutations.2.2.2.2.1 _ _ _ (by decide),
    C8_mutations.2.2.2.2.2.1 _ _ _ (by decide),
    C8_mutations.2.2.2.2.2.2.1 _ 0 (by decide),
    C8_mutations.2.2.2.2.2.2.2.1 _ 0 (by decide),
    C8_mutations.2.2.2.2.2.2.2.2.1 _ 1 (by decide) (by decide),
    C8_mutations.2.2.2.2.2.2.2.2.2 _ false 1 1 "x\ny" (by decide)⟩
  · rw [C8_mutations.2.2.1 _ 1 (by decide)]; decide
  · rw [C8_mutations.2.2.2.1 _ 0 (by decide)]; decide

/-! ### Table location -/

theorem expandUp_le (lines : List (List Char)) : ∀ i, expandUp lines i ≤ i
  | 0 => le_rfl
  | n + 1 => by
    rw [expandUp]
    by_cases h : hasPipeLine (lines.getD n []) = true
    · rw [if_pos h]; exact (expandUp_le lines n).trans (by omega)
    · rw [if_neg h]

theorem expandUp_boundary (lines : List (List Char)) : ∀ i,
    expandUp lines i = 0 ∨
      hasPipeLine (lines.getD (expandUp lines i - 1) []) = false
  | 0 => Or.inl rfl
  | n + 1 => by
    rw [expandUp]
    by_cases h : hasPipeLine (lines.getD n []) = true
    · rw [if_pos h]; exact expandUp_boundary lines n
    · rw [if_neg h]
      refine Or.inr ?_
      have hf : hasPipeLine (lines.getD n []) = false := by
        cases hv : hasPipeLine (lines.getD n []) with
        | false => rfl
        | true => exact absurd hv h
      simpa using hf

theorem expandUp_pipes (lines : List (List Char)) : ∀ i j,
    expandUp lines i ≤ j → j < i → hasPipeLine (lines.getD j []) = true
  | 0, j, _, h2 => absurd h2 (by omega)
  | n + 1, j, h1, h2 => by
    rw [expandUp] at h1
    by_cases h : hasPipeLine (lines.getD n []) = true
    · rw [if_pos h] at h1
      by_cases hj : j = n
      · rw [hj]; exact h
      · exact expandUp_pipes lines n j h1 (by omega)
    · rw [if_neg h] at h1
      omega

theorem expandDownAux_ge (lines : List (List Char)) : ∀ fuel e,
    e ≤ expandDownAux lines fuel e
  | 0, e => le_rfl
  | fuel + 1, e => by
    rw [expandDownAux]
    by_cases h : e + 1 < lines.length ∧ hasPipeLine (lines.getD (e + 1) []) = true
    · rw [if_pos h]
      exact le_trans (by omega) (expandDownAux_ge lines fuel (e + 1))
    · rw [if_neg h]

theorem expandDownAux_pipes (lines : List (List Char)) : ∀ fuel e j, e < j →
    j ≤ expandDownAux lines fuel e → hasPipeLine (lines.getD j []) = true
  | 0, e, j, h1, h2 => by rw [expandDownAux] at h2; omega
  | fuel + 1, e, j, h1, h2 => by
    rw [expandDownAux] at h2
    by_cases h : e + 1 < lines.length ∧ hasPipeLine (lines.getD (e + 1) []) = true
    · rw [if_pos h] at h2
      by_cases hj : j = e + 1
      · rw [hj]; exact h.2
      · exact expandDownAux_pipes lines fuel (e + 1) j (by omega) h2
    · rw [if_neg h] at h2
      omega

theorem expandDownAux_stop (lines : List (List Char)) : ∀ fuel e,
    lines.length ≤ fuel + e →
    expandDownAux lines fuel e + 1 < lines.length →
      hasPipeLine (lines.getD (expandDownAux lines fuel e + 1) []) = false
  | 0, e, hsuf, hlt => by
    rw [expandDownAux] at hlt
    omega
  | fuel + 1, e, hsuf, hlt => by
    rw [expandDownAux] at hlt ⊢
    by_cases h : e + 1 < lines.length ∧ hasPipeLine (lines.getD (e + 1) []) = true
    · rw [if_pos h] at hlt ⊢
      exact expandDownAux_stop lines fuel (e + 1) (by omega) hlt
    · rw [if_neg h] at hlt ⊢
      cases hv : hasPipeLine (lines.getD (e + 1) []) with
      | false => rfl
      | true => exact absurd ⟨hlt, hv⟩ h

theorem expandDownAux_lt (lines : List (List Char)) : ∀ fuel e,
    e < lines.length → expandDownAux lines fuel e < lines.length
  | 0, e, he => he
  | fuel + 1, e, he => by
    rw [expandDownAux]
    by_cases h : e + 1 < lines.length ∧ hasPipeLine (lines.getD (e + 1) []) = true
    · rw [if_pos h]; exact expandDownAux_lt lines fuel (e + 1) h.1
    · rw [if_neg h]; exact he

theorem expandDown_ge (lines : List (List Char)) (e : Nat) :
    e ≤ expandDown lines e :=
  expandDownAux_ge lines _ e

theorem expandDown_pipes (lines : List (List Char)) (e j : Nat) (h1 : e < j)
    (h2 : j ≤ expandDown lines e) : hasPipeLine (lines.getD j []) = true :=
  expandDownAux_pipes lines _ e j h1 h2

theorem expandDown_lt (lines : List (List Char)) (e : Nat)
    (he : e < lines.length) : expandDown lines e < lines.length :=
  expandDownAux_lt lines _ e he

theorem expandDown_stop (lines : List (List Char)) (e : Nat)
    (h : expandDown lines e + 1 < lines.length) :
    hasPipeLine (lines.getD (expandDown lines e + 1) []) = false :=
  expandDownAux_stop lines _ e (by omega) h

/-- C5: for every valid line index, `findTableAtPosition` returns `none`
exactly when the trimmed line has no pipe; otherwise the returned span
contains the line, stays within the document, consists entirely of
pipe-containing lines, and is maximal (each neighbour outside the span is a
document boundary or fails the pipe test).  The concrete scenario from the
specification is included. -/
theorem C5_find_table :
    (∀ (text : String) (i : Nat), i < (splitLines text.data).length →
      ((findTableAtPosition text i = none ↔
        hasPipeLine ((splitLines text.data).getD i []) = false) ∧
      (∀ info : TableInfo, findTableAtPosition text i = some info →
        info.startLine ≤ i ∧ i ≤ info.endLine ∧
        info.endLine < (splitLines text.data).length ∧
        (∀ j, info.startLine ≤ j → j ≤ info.endLine →
          hasPipeLine ((splitLines text.data).getD j []) = true) ∧
        (info.startLine = 0 ∨
          hasPipeLine
            ((splitLines text.data).getD (info.startLine - 1) []) = false) ∧
        (info.endLine = (splitLines text.data).length - 1 ∨
          hasPipeLine
            ((splitLines text.data).getD (info.endLine + 1) []) = false)))) ∧
    findTableAtPosition "pre\n| A |\n|---|\n| 1 |\npost\n" 1 =
      some ⟨1, 3, "| A |\n|---|\n| 1 |"⟩ := by
  refine ⟨?_, by decide⟩
  intro text i hi
  set lines := splitLines text.data with hlines
  constructor
  · simp only [findTableAtPosition, ← hlines]
    by_cases h : hasPipeLine (lines.getD i []) = false
    · rw [if_pos h]
      exact ⟨fun _ => h, fun _ => rfl⟩
    · rw [if_neg h]
      exact ⟨fun hf => absurd hf (by simp), fun hf => absurd hf h⟩
  · intro info hinfo
    simp only [findTableAtPosition, ← hlines] at hinfo
    by_cases h : hasPipeLine (lines.getD i []) = false
    · rw [if_pos h] at hinfo
      exact absurd hinfo (by simp)
    · rw [if_neg h] at hinfo
      have htrue : hasPipeLine (lines.getD i []) = true := by
        cases hv : hasPipeLine (lines.getD i []) with
        | false => exact absurd hv h
        | true => rfl
      obtain ⟨s, e, content⟩ := info
      rw [Option.some.injEq, TableInfo.mk.injEq] at hinfo
      obtain ⟨rfl, rfl, -⟩ := hinfo
      refine ⟨expandUp_le lines i, expandDown_ge lines i,
        expandDown_lt lines i hi, ?_, expandUp_boundary lines i, ?_⟩
      · intro j hj1 hj2
        rcases Nat.lt_trichotomy j i with hlt | rfl | hgt
        · exact expandUp_pipes lines i j hj1 hlt
        · exact htrue
        · exact expandDown_pipes lines i j hgt hj2
      · by_cases hend : expandDown lines i + 1 < lines.length
        · exact Or.inr (expandDown_stop lines i hend)
        · have hlt2 := expandDown_lt lines i hi
          exact Or.inl (show expandDown lines i = lines.length - 1 by omega)

/-- Witness for C5: the characterization applied at the scenario input. -/
theorem C5_find_table_witness :
    1 < (splitLines ("pre\n| A |\n|---|\n| 1 |\npost\n" : String).data).length ∧
      (findTableAtPosition "pre\n| A |\n|---|\n| 1 |\npost\n" 1 = none ↔
        hasPipeLine
          ((splitLines ("pre\n| A |\n|---|\n| 1 |\npost\n" : String).data).getD
            1 []) = false) :=
  ⟨by decide, (C5_find_table.1 "pre\n| A |\n|---|\n| 1 |\npost\n" 1 (by decide)).1⟩

/-! ### Separator-row detection and decode shape -/

/-- The separator-cell shape asserted by the specification: optional leading
colons, at least one hyphen, optional trailing colons — nothing else. -/
def specAlignCell (s : String) : Bool :=
  let afterLead := s.data.dropWhile (fun c => c = ':')
  let dashes := afterLead.takeWhile (fun c => c = '-')
  let afterDash := afterLead.dropWhile (fun c => c = '-')
  !dashes.isEmpty && afterDash.all (fun c => c = ':')

/-- On an input with at least two lines, `parseMarkdownTable` removes row
index 1 exactly when every cell of that parsed row passes `isSepCell`. -/
theorem parse_eq (text : String)
    (h2 : 2 ≤ (splitLines (trimChars text.data)).length) :
    parseMarkdownTable text =
      if (((splitLines (trimChars text.data)).map parseLine).getD 1 []).all
          isSepCell then
        (((splitLines (trimChars text.data)).map parseLine).eraseIdx 1)
      else (splitLines (trimChars text.data)).map parseLine := by
  simp only [parseMarkdownTable]
  rw [if_neg (by omega)]
  have hlen : 1 < ((splitLines (trimChars text.data)).map parseLine).length := by
    rw [List.length_map]; omega
  by_cases hsep :
      ((((splitLines (trimChars text.data)).map parseLine).getD 1 []).all
        isSepCell) = true
  · rw [if_pos ⟨hlen, hsep⟩, if_pos hsep]
  · rw [if_neg (fun hc => hsep hc.2), if_neg hsep]

/-- C4 counterexample: the second line `| :: |` parses to the single cell
`"::"`, which is not of the claimed hyphens-with-optional-colons shape, yet
the parser removes it (`/^[-:]+$/` accepts any mix of hyphens and colons). -/
theorem C4_sep_counterexample :
    parseMarkdownTable "| a |\n| :: |" = [["a"]] ∧
      specAlignCell "::" = false := by
  constructor
  · decide
  · decide

/-- C4 (amended): `parseMarkdownTable` removes row index 1 exactly when
every cell of that row is a non-empty string consisting only of hyphens and
colons in any arrangement (`isSepCell`); otherwise the row is kept as data. -/
theorem C4_sep_detection (text : String)
    (h2 : 2 ≤ (splitLines (trimChars text.data)).length) :
    ((((splitLines (trimChars text.data)).map parseLine).getD 1 []).all
        isSepCell = true →
      parseMarkdownTable text =
        (((splitLines (trimChars text.data)).map parseLine).eraseIdx 1)) ∧
    ((((splitLines (trimChars text.data)).map parseLine).getD 1 []).all
        isSepCell = false →
      parseMarkdownTable text =
        (splitLines (trimChars text.data)).map parseLine) := by
  constructor
  · intro hsep
    rw [parse_eq text h2, if_pos hsep]
  · intro hsep
    rw [parse_eq text h2, if_neg (by rw [hsep]; exact Bool.false_ne_true)]

/-- Witness for C4 at a removed separator row and a kept data row. -/
theorem C4_sep_detection_witness :
    (2 ≤ (splitLines (trimChars ("| a |\n| :-: |\n| b |" : String).data)).length ∧
      parseMarkdownTable "| a |\n| :-: |\n| b |" =
        ((splitLines (trimChars ("| a |\n| :-: |\n| b |" : String).data)).map
          parseLine).eraseIdx 1) ∧
    (2 ≤ (splitLines (trimChars ("| a |\n| c |" : String).data)).length ∧
      parseMarkdownTable "| a |\n| c |" =
        (splitLines (trimChars ("| a |\n| c |" : String).data)).map parseLine) :=
  ⟨⟨by decide, (C4_sep_detection "| a |\n| :-: |\n| b |" (by decide)).1 (by decide)⟩,
   ⟨by decide, (C4_sep_detection "| a |\n| c |" (by decide)).2 (by decide)⟩⟩

theorem mem_eraseIdx_one : ∀ (l : List α), ∀ x ∈ l.eraseIdx 1,
    ∃ j, j ≠ 1 ∧ l.get? j = some x
  | [], x, hx => by simp [List.eraseIdx] at hx
  | [a], x, hx => by
    simp only [List.eraseIdx, List.mem_singleton] at hx
    exact ⟨0, by omega, by rw [hx]; rfl⟩
  | a :: b :: t, x, hx => by
    simp only [List.eraseIdx, List.mem_cons] at hx
    rcases hx with rfl | hx
    · exact ⟨0, by omega, rfl⟩
    · obtain ⟨i, hi⟩ := List.mem_iff_get?.mp hx
      exact ⟨i + 2, by omega, hi⟩

/-- C3 counterexample: a data row with fewer cells than the header is kept
at its own length, not padded — the decoded grid is not rectangular. -/
theorem C3_no_padding_counterexample :
    parseMarkdownTable "| a | b |\n| c |" = [["a", "b"], ["c"]] ∧
      ¬ Rect (parseMarkdownTable "| a | b |\n| c |") := by
  constructor
  · decide
  · decide

/-- C3 (amended): `parseMarkdownTable` performs no padding, keeping each row
at its parsed length; for well-formed pipe-table text — at least two lines,
the second being a full separator row, every other line parsing to exactly
`k` cells — it yields one row fewer than the line count (header plus the
data rows), each of exactly `k` cells. -/
theorem C3_decode_shape (text : String) (k : Nat)
    (h2 : 2 ≤ (splitLines (trimChars text.data)).length)
    (hsep : ((((splitLines (trimChars text.data)).map parseLine).getD 1 []).all
      isSepCell) = true)
    (hcells : ∀ i, i < (splitLines (trimChars text.data)).length → i ≠ 1 →
      (parseLine ((splitLines (trimChars text.data)).getD i [])).length = k) :
    (parseMarkdownTable text).length =
        (splitLines (trimChars text.data)).length - 1 ∧
      ∀ row ∈ parseMarkdownTable text, row.length = k := by
  rw [parse_eq text h2, if_pos hsep]
  set lines := splitLines (trimChars text.data) with hlines
  constructor
  · rw [List.length_eraseIdx_of_lt (by rw [List.length_map]; omega),
      List.length_map]
  · intro row hrow
    obtain ⟨j, hj1, hj2⟩ := mem_eraseIdx_one _ row hrow
    have hjlt : j < lines.length := by
      by_contra hge
      rw [List.get?_eq_none.mpr (by rw [List.length_map]; omega)] at hj2
      exact Option.noConfusion hj2
    rw [List.get?_map] at hj2
    have hline : lines.get? j = some (lines.getD j []) := by
      rw [List.getD_eq_getElem?_getD, ← List.get?_eq_getElem?]
      cases hv : lines.get? j with
      | none => rw [List.get?_eq_none] at hv; omega
      | some v => rfl
    rw [hline] at hj2
    have : parseLine (lines.getD j []) = row := by
      simpa using hj2
    rw [← this]
    exact hcells j hjlt hj1

/-- Witness for C3 at the canonical two-column table. -/
theorem C3_decode_shape_witness :
    (parseMarkdownTable "| A | B |\n|---|---|\n| 1 | 2 |").length = 2 ∧
      ∀ row ∈ parseMarkdownTable "| A | B |\n|---|---|\n| 1 | 2 |",
        row.length = 2 := by
  have h := C3_decode_shape "| A | B |\n|---|---|\n| 1 | 2 |" 2
    (by decide) (by decide) (by decide)
  exact ⟨by rw [h.1]; decide, h.2⟩

/-! ### Encoding round-trip: pipes -/

/-- `segments.join('|')`: the shape of a formatted table line between its
cells. -/
def pipeJoin : List (List Char) → List Char
  | [] => []
  | [x] => x
  | x :: y :: xs => x ++ '|' :: pipeJoin (y :: xs)

theorem pipeJoin_cons (x : List Char) (xs : List (List Char)) (h : xs ≠ []) :
    pipeJoin (x :: xs) = x ++ '|' :: pipeJoin xs := by
  cases xs with
  | nil => exact absurd rfl h
  | cons y ys => rfl

theorem splitPipeAux_clean (s : List Char) (hs : ∀ c ∈ s, ¬c = '|') :
    ∀ (rest acc : List Char),
      splitPipeAux (s ++ rest) acc = splitPipeAux rest (s.reverse ++ acc) := by
  induction s with
  | nil => intro rest acc; simp
  | cons c s ih =>
    intro rest acc
    rw [List.cons_append, splitPipeAux, if_neg (hs c (by simp)),
      ih (fun d hd => hs d (by simp [hd])) rest (c :: acc)]
    simp

theorem splitPipe_pipeJoin : ∀ (segs : List (List Char)), segs ≠ [] →
    (∀ seg ∈ segs, ∀ c ∈ seg, ¬c = '|') → splitPipe (pipeJoin segs) = segs
  | [], h, _ => absurd rfl h
  | [x], _, hseg => by
    show splitPipeAux (pipeJoin [x]) [] = [x]
    rw [show pipeJoin [x] = x ++ [] by simp [pipeJoin],
      splitPipeAux_clean x (fun c hc => hseg x (by simp) c hc) [] []]
    simp [splitPipeAux]
  | x :: y :: xs, _, hseg => by
    show splitPipeAux (pipeJoin (x :: y :: xs)) [] = x :: y :: xs
    rw [pipeJoin, splitPipeAux_clean x (fun c hc => hseg x (by simp) c hc) _ [],
      splitPipeAux, if_pos rfl]
    rw [show splitPipeAux (pipeJoin (y :: xs)) [] =
        splitPipe (pipeJoin (y :: xs)) from rfl]
    rw [splitPipe_pipeJoin (y :: xs) (by simp)
      (fun seg hs c hc => hseg seg (by simp [hs]) c hc)]
    simp

theorem pipeJoin_wrap : ∀ (ps : List (List Char)), ps ≠ [] →
    pipeJoin (ps.map (fun p => ' ' :: (p ++ [' '])) ++ [[]]) =
      ' ' :: joinSepC [' ', '|', ' '] ps ++ [' ', '|']
  | [], h => absurd rfl h
  | [p], _ => by simp [pipeJoin, joinSepC]
  | p :: q :: rest, _ => by
    rw [List.map_cons, List.cons_append, pipeJoin_cons _ _ (by simp),
      pipeJoin_wrap (q :: rest) (by simp), joinSepC]
    simp

/-- A formatted table line `'| ' + cells.join(' | ') + ' |'` is the pipe-join
of the wrapped cells with an empty leading and trailing segment. -/
theorem line_of_cells (ps : List (List Char)) (hne : ps ≠ []) :
    ['|', ' '] ++ joinSepC [' ', '|', ' '] ps ++ [' ', '|'] =
      pipeJoin ([] :: (ps.map (fun p => ' ' :: (p ++ [' '])) ++ [[]])) := by
  rw [pipeJoin_cons [] _ (by simp), pipeJoin_wrap _ hne]
  simp

/-! ### Indexed map: more helpers -/

theorem mapWithIndex_mem (f : Nat → α → β) : ∀ (l : List α) (s : Nat),
    ∀ p ∈ mapWithIndex f s l, ∃ i a, a ∈ l ∧ p = f i a
  | [], _, p, hp => by simp [mapWithIndex] at hp
  | a :: l, s, p, hp => by
    rw [mapWithIndex, List.mem_cons] at hp
    rcases hp with rfl | hp2
    · exact ⟨s, a, by simp, rfl⟩
    · obtain ⟨i, b, hb, rfl⟩ := mapWithIndex_mem f l (s + 1) p hp2
      exact ⟨i, b, by simp [hb], rfl⟩

theorem map_mapWithIndex (g : β → γ) (f : Nat → α → β) : ∀ (l : List α) (s : Nat),
    (mapWithIndex f s l).map g = mapWithIndex (fun i a => g (f i a)) s l
  | [], _ => rfl
  | a :: l, s => by
    rw [mapWithIndex, List.map_cons, map_mapWithIndex g f l (s + 1)]
    rfl

theorem mapWithIndex_congr (f g : Nat → α → β) : ∀ (l : List α) (s : Nat),
    (∀ i a, a ∈ l → f i a = g i a) → mapWithIndex f s l = mapWithIndex g s l
  | [], _, _ => rfl
  | a :: l, s, h => by
    rw [mapWithIndex, mapWithIndex, h s a (by simp),
      mapWithIndex_congr f g l (s + 1) (fun i b hb => h i b (by simp [hb]))]

theorem mapWithIndex_const (h : α → β) : ∀ (l : List α) (s : Nat),
    mapWithIndex (fun _ a => h a) s l = l.map h
  | [], _ => rfl
  | a :: l, s => by
    rw [mapWithIndex, List.map_cons, mapWithIndex_const h l (s + 1)]

/-! ### Parsing a formatted line -/

theorem parseLine_formatted (ps : List (List Char)) (hne : ps ≠ [])
    (hp : ∀ p ∈ ps, ∀ c ∈ p, ¬c = '|') :
    parseLine (['|', ' '] ++ joinSepC [' ', '|', ' '] ps ++ [' ', '|']) =
      ps.map (fun p => String.mk (trimChars p)) := by
  set L := ['|', ' '] ++ joinSepC [' ', '|', ' '] ps ++ [' ', '|'] with hLdef
  have hhead : L.head? = some '|' := by rw [hLdef]; rfl
  have hlast : L.getLast? = some '|' := by
    rw [hLdef,
      show ['|', ' '] ++ joinSepC [' ', '|', ' '] ps ++ [' ', '|'] =
        (['|', ' '] ++ joinSepC [' ', '|', ' '] ps ++ [' ']) ++ ['|'] by simp]
    exact List.getLast?_concat _
  have htrim : trimChars L = L := by
    apply trimChars_eq_self
    · intro x hx
      rw [hhead] at hx
      cases hx
      decide
    · intro x hx
      rw [hlast] at hx
      cases hx
      decide
  have hsplit : splitPipe L =
      [] :: (ps.map (fun p => ' ' :: (p ++ [' '])) ++ [[]]) := by
    rw [hLdef, line_of_cells ps hne]
    apply splitPipe_pipeJoin _ (by simp)
    intro seg hseg c hc
    rcases List.mem_cons.mp hseg with rfl | hseg2
    · simp at hc
    · rcases List.mem_append.mp hseg2 with hseg3 | hseg4
      · obtain ⟨p, hpmem, rfl⟩ := List.mem_map.mp hseg3
        rcases List.mem_cons.mp hc with rfl | hc2
        · decide
        · rcases List.mem_append.mp hc2 with hc3 | hc4
          · exact hp p hpmem c hc3
          · rw [List.mem_singleton.mp hc4]; decide
      · rw [List.mem_singleton.mp hseg4] at hc
        simp at hc
  simp only [parseLine]
  rw [htrim, if_pos hhead, if_pos hlast, hsplit]
  rw [List.map_cons, List.map_append, List.tail_cons, List.map_singleton,
    List.dropLast_concat, List.map_map]
  apply List.map_congr_left
  intro p _
  show String.mk (trimChars (' ' :: (p ++ [' ']))) = String.mk (trimChars p)
  rw [show (' ' :: (p ++ [' '])) = [' '] ++ p ++ [' '] by simp,
    trimChars_ws_affix [' '] p [' '] (by decide) (by decide)]

/-! ### Encoding round-trip: lines -/

theorem splitLinesAux_clean (s : List Char)
    (hs : ∀ c ∈ s, ¬c = '\n' ∧ ¬c = '\r') :
    ∀ (rest acc : List Char),
      splitLinesAux (s ++ rest) acc = splitLinesAux rest (s.reverse ++ acc) := by
  induction s with
  | nil => intro rest acc; simp
  | cons c s ih =>
    intro rest acc
    obtain ⟨hc1, hc2⟩ := hs c (by simp)
    rw [List.cons_append, splitLinesAux, if_neg hc1, if_neg (fun h => hc2 h.1),
      ih (fun d hd => hs d (by simp [hd])) rest (c :: acc)]
    simp

theorem splitLines_joinNL : ∀ (L : List (List Char)), L ≠ [] →
    (∀ line ∈ L, ∀ c ∈ line, ¬c = '\n' ∧ ¬c = '\r') →
      splitLines (joinNL L) = L
  | [], h, _ => absurd rfl h
  | [x], _, hline => by
    show splitLinesAux (joinNL [x]) [] = [x]
    rw [show joinNL [x] = x ++ [] by simp [joinNL],
      splitLinesAux_clean x (fun c hc => hline x (by simp) c hc) [] []]
    simp [splitLinesAux]
  | x :: y :: xs, _, hline => by
    show splitLinesAux (joinNL (x :: y :: xs)) [] = x :: y :: xs
    rw [joinNL, splitLinesAux_clean x (fun c hc => hline x (by simp) c hc) _ [],
      splitLinesAux, if_pos rfl]
    rw [show splitLinesAux (joinNL (y :: xs)) [] =
        splitLines (joinNL (y :: xs)) from rfl,
      splitLines_joinNL (y :: xs) (by simp)
        (fun line hl c hc => hline line (by simp [hl]) c hc)]
    simp

theorem joinSepC_mem (sep : List Char) : ∀ (l : List (List Char)),
    ∀ c ∈ joinSepC sep l, c ∈ sep ∨ ∃ x ∈ l, c ∈ x
  | [], c, hc => by simp [joinSepC] at hc
  | [x], c, hc => Or.inr ⟨x, by simp, hc⟩
  | x :: y :: xs, c, hc => by
    rw [joinSepC] at hc
    rcases List.mem_append.mp hc with h1 | h2
    · rcases List.mem_append.mp h1 with h3 | h4
      · exact Or.inr ⟨x, by simp, h3⟩
      · exact Or.inl h4
    · rcases joinSepC_mem sep (y :: xs) c h2 with h3 | ⟨z, hz, hcz⟩
      · exact Or.inl h3
      · exact Or.inr ⟨z, by simp [hz], hcz⟩

/-- Every character of a formatted line is scaffolding (`|`, space) or a
character of one of its cell payloads. -/
theorem line_chars (ps : List (List Char)) :
    ∀ c ∈ ['|', ' '] ++ joinSepC [' ', '|', ' '] ps ++ [' ', '|'],
      c = '|' ∨ c = ' ' ∨ ∃ p ∈ ps, c ∈ p := by
  intro c hc
  rcases List.mem_append.mp hc with h1 | h2
  · rcases List.mem_append.mp h1 with h3 | h4
    · simp only [List.mem_cons, List.mem_singleton] at h3
      tauto
    · rcases joinSepC_mem _ ps c h4 with hsep | ⟨p, hp, hcp⟩
      · simp only [List.mem_cons, List.mem_singleton] at hsep
        tauto
      · exact Or.inr (Or.inr ⟨p, hp, hcp⟩)
  · simp only [List.mem_cons, List.mem_singleton] at h2
    tauto

/-- The separator row emitted by `generateMarkdownTable`. -/
def sepLineC (ws : List Nat) : List Char :=
  ['|', ' '] ++
    joinSepC [' ', '|', ' '] (ws.map (fun w => List.replicate w '-')) ++
    [' ', '|']

/-- The individual lines making up `generateChars` of a non-empty grid. -/
def linesOfGrid (data : List (List (List Char))) : List (List Char) :=
  formatRowC (computeColWidths data) (data.headD []) ::
    sepLineC (computeColWidths data) ::
    data.tail.map (formatRowC (computeColWidths data))

theorem joinNL_nlterm : ∀ (X : List (List Char)) (pre : List Char),
    joinNL (pre :: X) ++ ['\n'] =
      pre ++ '\n' :: (X.map (fun r => r ++ ['\n'])).flatten
  | [], pre => by simp [joinNL]
  | x :: xs, pre => by
    rw [show joinNL (pre :: x :: xs) = pre ++ '\n' :: joinNL (x :: xs) from rfl,
      List.map_cons, List.flatten_cons]
    have key := joinNL_nlterm xs x
    simp only [List.append_assoc, List.cons_append]
    rw [key]
    simp

theorem generateChars_eq (data : List (List (List Char))) (h : data ≠ []) :
    generateChars data = joinNL (linesOfGrid data) ++ ['\n'] := by
  have hne : ¬data.length = 0 := by simpa using h
  simp only [generateChars, if_neg hne, linesOfGrid, sepLineC]
  rw [joinNL_nlterm, List.map_cons, List.flatten_cons, List.map_map]
  simp only [List.append_assoc, List.cons_append, List.singleton_append]
  rfl

theorem joinNL_head? (x : List Char) (L : List (List Char)) (c : Char)
    (hx : x.head? = some c) : (joinNL (x :: L)).head? = some c := by
  cases L with
  | nil => exact hx
  | cons y ys =>
    rw [show joinNL (x :: y :: ys) = x ++ '\n' :: joinNL (y :: ys) from rfl,
      List.head?_append, hx]
    rfl

theorem joinNL_getLast_pipe : ∀ (L : List (List Char)), L ≠ [] →
    (∀ line ∈ L, ∃ pre, line = pre ++ ['|']) →
      (joinNL L).getLast? = some '|'
  | [], h, _ => absurd rfl h
  | [x], _, hend => by
    obtain ⟨pre, rfl⟩ := hend x (by simp)
    exact List.getLast?_concat _
  | x :: y :: xs, _, hend => by
    rw [show joinNL (x :: y :: xs) = x ++ '\n' :: joinNL (y :: xs) from rfl,
      List.getLast?_append,
      show ('\n' :: joinNL (y :: xs)) = ['\n'] ++ joinNL (y :: xs) from rfl,
      List.getLast?_append,
      joinNL_getLast_pipe (y :: xs) (by simp) (fun l hl => hend l (by simp [hl]))]
    rfl

theorem line_of_cells_concat (ps : List (List Char)) :
    ∃ pre, ['|', ' '] ++ joinSepC [' ', '|', ' '] ps ++ [' ', '|'] =
      pre ++ ['|'] :=
  ⟨['|', ' '] ++ joinSepC [' ', '|', ' '] ps ++ [' '], by simp⟩

theorem formatRow_clean (ws : List Nat) (row : List String)
    (hc : ∀ cell ∈ row, ¬ '\n' ∈ cell.data ∧ ¬ '\r' ∈ cell.data) :
    ∀ c ∈ formatRowC ws (row.map String.data), ¬c = '\n' ∧ ¬c = '\r' := by
  intro c hcm
  rw [formatRowC] at hcm
  rcases line_chars _ c hcm with rfl | rfl | ⟨p, hp, hcp⟩
  · exact ⟨by decide, by decide⟩
  · exact ⟨by decide, by decide⟩
  · obtain ⟨i, a, ha, rfl⟩ := mapWithIndex_mem _ _ _ p hp
    rw [padEndC] at hcp
    rcases List.mem_append.mp hcp with h1 | h2
    · obtain ⟨cell, hcell, rfl⟩ := List.mem_map.mp ha
      exact ⟨fun hh => (hc cell hcell).1 (hh ▸ h1),
        fun hh => (hc cell hcell).2 (hh ▸ h1)⟩
    · rw [List.eq_of_mem_replicate h2]
      exact ⟨by decide, by decide⟩

theorem sepLine_clean (ws : List Nat) :
    ∀ c ∈ sepLineC ws, ¬c = '\n' ∧ ¬c = '\r' := by
  intro c hcm
  rw [sepLineC] at hcm
  rcases line_chars _ c hcm with rfl | rfl | ⟨p, hp, hcp⟩
  · exact ⟨by decide, by decide⟩
  · exact ⟨by decide, by decide⟩
  · obtain ⟨w, hw, rfl⟩ := List.mem_map.mp hp
    rw [List.eq_of_mem_replicate hcp]
    exact ⟨by decide, by decide⟩

/-! ### Column widths -/

theorem updateRowWidths_length : ∀ (ws : List Nat) (row : List (List Char)),
    (updateRowWidths ws row).length = ws.length
  | ws, [] => by cases ws <;> rfl
  | [], _ :: _ => rfl
  | w :: ws, c :: cs => by
    rw [updateRowWidths, List.length_cons, List.length_cons,
      updateRowWidths_length ws cs]

theorem foldl_updateRowWidths_length (rows : List (List (List Char))) :
    ∀ init : List Nat, (rows.foldl updateRowWidths init).length = init.length := by
  induction rows with
  | nil => intro init; rfl
  | cons r t ih => intro init; rw [List.foldl_cons, ih, updateRowWidths_length]

theorem computeColWidths_length (data : List (List (List Char))) :
    (computeColWidths data).length = (data.headD []).length := by
  rw [computeColWidths, List.length_map, foldl_updateRowWidths_length,
    List.length_replicate]

theorem computeColWidths_ge3 (data : List (List (List Char))) :
    ∀ w ∈ computeColWidths data, 3 ≤ w := by
  intro w hw
  rw [computeColWidths] at hw
  obtain ⟨v, hv, rfl⟩ := List.mem_map.mp hw
  exact le_max_right v 3

/-! ### Parsing the generated rows -/

theorem parseLine_row (ws : List Nat) (row : List String) (hne : row ≠ [])
    (hpipe : ∀ cell ∈ row, ¬ '|' ∈ cell.data)
    (htrim : ∀ cell ∈ row, trimChars cell.data = cell.data) :
    parseLine (formatRowC ws (row.map String.data)) = row := by
  rw [formatRowC]
  have hmw : ∀ p ∈ mapWithIndex (fun i cell => padEndC cell (ws.getD i 0)) 0
      (row.map String.data), ∀ c ∈ p, ¬c = '|' := by
    intro p hp c hc
    obtain ⟨i, a, ha, rfl⟩ := mapWithIndex_mem _ _ _ p hp
    rw [padEndC] at hc
    rcases List.mem_append.mp hc with h1 | h2
    · obtain ⟨cell, hcell, rfl⟩ := List.mem_map.mp ha
      exact fun hh => hpipe cell hcell (hh ▸ h1)
    · rw [List.eq_of_mem_replicate h2]; decide
  have hmwne : mapWithIndex (fun i cell => padEndC cell (ws.getD i 0)) 0
      (row.map String.data) ≠ [] := by
    cases row with
    | nil => exact absurd rfl hne
    | cons a t => simp [mapWithIndex]
  rw [parseLine_formatted _ hmwne hmw, map_mapWithIndex]
  rw [mapWithIndex_congr _ (fun _ a => String.mk a) _ 0 ?_]
  · rw [mapWithIndex_const, List.map_map]
    conv_rhs => rw [show row = row.map id from (List.map_id row).symm]
    apply List.map_congr_left
    intro cell _
    show String.mk cell.data = cell
    cases cell
    rfl
  · intro i a ha
    obtain ⟨cell, hcell, rfl⟩ := List.mem_map.mp ha
    show String.mk (trimChars (padEndC cell.data (ws.getD i 0))) =
      String.mk cell.data
    rw [padEndC,
      show cell.data ++ List.replicate (ws.getD i 0 - cell.data.length) ' ' =
        [] ++ cell.data ++
          List.replicate (ws.getD i 0 - cell.data.length) ' ' by simp,
      trimChars_ws_affix [] cell.data _ (by simp)
        (fun x hx => by rw [List.eq_of_mem_replicate hx]; decide),
      htrim cell hcell]

theorem trim_replicate_dash (w : Nat) :
    trimChars (List.replicate w '-') = List.replicate w '-' := by
  apply trimChars_eq_self
  · intro x hx
    cases w with
    | zero => simp at hx
    | succ n =>
      rw [List.replicate_succ] at hx
      cases hx
      decide
  · intro x hx
    cases w with
    | zero => simp at hx
    | succ n =>
      rw [List.replicate_succ', List.getLast?_concat] at hx
      cases hx
      decide

theorem parseLine_sepLine (ws : List Nat) (hne : ws ≠ []) :
    parseLine (sepLineC ws) =
      ws.map (fun w => String.mk (List.replicate w '-')) := by
  rw [sepLineC]
  have hdash : ∀ p ∈ ws.map (fun w => List.replicate w '-'), ∀ c ∈ p,
      ¬c = '|' := by
    intro p hp c hc
    obtain ⟨w, hw, rfl⟩ := List.mem_map.mp hp
    rw [List.eq_of_mem_replicate hc]; decide
  rw [parseLine_formatted _ (by simpa using hne) hdash, List.map_map]
  apply List.map_congr_left
  intro w _
  show String.mk (trimChars (List.replicate w '-')) =
    String.mk (List.replicate w '-')
  rw [trim_replicate_dash]

theorem isSepCell_dashes (w : Nat) (h : 1 ≤ w) :
    isSepCell (String.mk (List.replicate w '-')) = true := by
  rw [isSepCell]
  cases w with
  | zero => omega
  | succ n =>
    rw [Bool.and_eq_true]
    constructor
    · rw [List.replicate_succ]
      rfl
    · rw [List.all_eq_true]
      intro c hc
      have hcd : c ∈ List.replicate (n + 1) '-' := hc
      rw [List.eq_of_mem_replicate hcd]
      decide

/-- C1 counterexample: a cell consisting of a single space is not recovered —
the codec trims every cell, so `decode(encode([[" "]]))` is `[[""]]`. -/
theorem C1_roundtrip_counterexample :
    parseMarkdownTable (generateMarkdownTable [[" "]]) = [[""]] ∧
      ([[""]] : List (List String)) ≠ [[" "]] := by
  constructor
  · decide
  · decide

/-- C1 (amended): the codec round-trips every rectangular grid with at least
one column whose cells contain no pipe, no line feed, no carriage return,
and no leading or trailing whitespace (each cell equals its own trim). -/
theorem C1_roundtrip (data : List (List String)) (hne : data ≠ [])
    (hrect : Rect data) (hcols : 1 ≤ (data.headD []).length)
    (hcells : ∀ row ∈ data, ∀ cell ∈ row,
      ¬ '|' ∈ cell.data ∧ ¬ '\n' ∈ cell.data ∧ ¬ '\r' ∈ cell.data ∧
        trimChars cell.data = cell.data) :
    parseMarkdownTable (generateMarkdownTable data) = data := by
  cases data with
  | nil => exact absurd rfl hne
  | cons d0 t =>
  set dataC := (d0 :: t).map (fun row => row.map String.data) with hdataC
  set ws := computeColWidths dataC with hws
  have hd0len : 1 ≤ d0.length := hcols
  have hd0ne : d0 ≠ [] := by
    intro h0; rw [h0] at hd0len; simp at hd0len
  have hwsne : ws ≠ [] := by
    have hlen : ws.length = d0.length := by
      rw [hws, computeColWidths_length, hdataC]
      simp
    intro h0; rw [h0] at hlen; simp at hlen; omega
  have hlines_eq : linesOfGrid dataC =
      formatRowC ws (d0.map String.data) :: sepLineC ws ::
        t.map (fun r => formatRowC ws (r.map String.data)) := by
    rw [linesOfGrid, ← hws, hdataC]
    simp [List.map_map, Function.comp]
  have hclean : ∀ line ∈ linesOfGrid dataC, ∀ c ∈ line,
      ¬c = '\n' ∧ ¬c = '\r' := by
    rw [hlines_eq]
    intro line hl
    rcases List.mem_cons.mp hl with rfl | hl2
    · exact formatRow_clean ws d0 (fun cell hc =>
        ⟨(hcells d0 (by simp) cell hc).2.1, (hcells d0 (by simp) cell hc).2.2.1⟩)
    · rcases List.mem_cons.mp hl2 with rfl | hl3
      · exact sepLine_clean ws
      · obtain ⟨r, hr, rfl⟩ := List.mem_map.mp hl3
        exact formatRow_clean ws r (fun cell hc =>
          ⟨(hcells r (by simp [hr]) cell hc).2.1,
           (hcells r (by simp [hr]) cell hc).2.2.1⟩)
  have hends : ∀ line ∈ linesOfGrid dataC, ∃ pre, line = pre ++ ['|'] := by
    rw [hlines_eq]
    intro line hl
    rcases List.mem_cons.mp hl with rfl | hl2
    · rw [formatRowC]; exact line_of_cells_concat _
    · rcases List.mem_cons.mp hl2 with rfl | hl3
      · rw [sepLineC]; exact line_of_cells_concat _
      · obtain ⟨r, hr, rfl⟩ := List.mem_map.mp hl3
        rw [formatRowC]; exact line_of_cells_concat _
  have htrimgen : trimChars (generateChars dataC) = joinNL (linesOfGrid dataC) := by
    rw [generateChars_eq dataC (by rw [hdataC]; simp),
      show joinNL (linesOfGrid dataC) ++ ['\n'] =
        [] ++ joinNL (linesOfGrid dataC) ++ ['\n'] by simp,
      trimChars_ws_affix [] _ ['\n'] (by simp) (by decide)]
    apply trimChars_eq_self
    · intro x hx
      rw [hlines_eq,
        joinNL_head? (formatRowC ws (d0.map String.data))
          (sepLineC ws :: t.map (fun r => formatRowC ws (r.map String.data)))
          '|' rfl] at hx
      cases hx
      decide
    · intro x hx
      rw [joinNL_getLast_pipe (linesOfGrid dataC)
        (by rw [hlines_eq]; simp) hends] at hx
      cases hx
      decide
  have hsplit : splitLines (trimChars (generateChars dataC)) =
      linesOfGrid dataC := by
    rw [htrimgen]
    exact splitLines_joinNL _ (by rw [hlines_eq]; simp) hclean
  have hgen : (generateMarkdownTable (d0 :: t)).data = generateChars dataC := rfl
  simp only [parseMarkdownTable]
  rw [hgen, hsplit]
  rw [if_neg (by rw [hlines_eq]; simp)]
  have h1 : parseLine (formatRowC ws (d0.map String.data)) = d0 :=
    parseLine_row ws d0 hd0ne
      (fun cell hc => (hcells d0 (by simp) cell hc).1)
      (fun cell hc => (hcells d0 (by simp) cell hc).2.2.2)
  have h2 : parseLine (sepLineC ws) =
      ws.map (fun w => String.mk (List.replicate w '-')) :=
    parseLine_sepLine ws hwsne
  have h3 : (t.map (fun r => formatRowC ws (r.map String.data))).map parseLine
      = t := by
    rw [List.map_map]
    conv_rhs => rw [show t = t.map id from (List.map_id t).symm]
    apply List.map_congr_left
    intro r hr
    have hrlen : r.length = d0.length := hrect r (by simp [hr])
    have hrne : r ≠ [] := by
      intro h0; rw [h0] at hrlen; simp at hrlen; omega
    show parseLine (formatRowC ws (r.map String.data)) = r
    exact parseLine_row ws r hrne
      (fun cell hc => (hcells r (by simp [hr]) cell hc).1)
      (fun cell hc => (hcells r (by simp [hr]) cell hc).2.2.2)
  rw [hlines_eq, List.map_cons, List.map_cons, h1, h2, h3]
  rw [if_pos ?_]
  · rfl
  · constructor
    · simp
    · show ((d0 :: ws.map (fun w => String.mk (List.replicate w '-')) :: t).getD
        1 []).all isSepCell = true
      rw [show (d0 :: ws.map (fun w => String.mk (List.replicate w '-')) :: t).getD
        1 [] = ws.map (fun w => String.mk (List.replicate w '-')) from rfl,
        List.all_eq_true]
      intro s hs
      obtain ⟨w, hw, rfl⟩ := List.mem_map.mp hs
      exact isSepCell_dashes w
        (by have := computeColWidths_ge3 dataC w (hws ▸ hw); omega)

/-- Witness for C1 at the canonical two-by-two grid. -/
theorem C1_roundtrip_witness :
    ([["A", "B"], ["1", "2"]] : List (List String)) ≠ [] ∧
      Rect [["A", "B"], ["1", "2"]] ∧
      parseMarkdownTable (generateMarkdownTable [["A", "B"], ["1", "2"]]) =
        [["A", "B"], ["1", "2"]] :=
  ⟨by decide, by decide,
    C1_roundtrip [["A", "B"], ["1", "2"]] (by decide) (by decide) (by decide)
      (by decide)⟩

/-! ### Encode format against the specification -/

/-- The column width the specification describes: `max(3, maximum cell
character length over all rows in that column)`.  This definition follows
the specification's words; the source computes the widths by a fold. -/
def specColWidth (data : List (List String)) (i : Nat) : Nat :=
  max 3 ((data.map (fun row => (row.getD i "").data.length)).foldr max 0)

/-- A row formatted as the specification describes: every cell padded with
trailing spaces to its column's width, emitted as `| cell | cell | ... |`. -/
def specRowLine (data : List (List String)) (row : List String) : List Char :=
  ['|', ' '] ++
    joinSepC [' ', '|', ' ']
      (mapWithIndex (fun i cell => padEndC cell.data (specColWidth data i))
        0 row) ++
    [' ', '|']

/-- The full encoding the specification describes: header row, separator row
of hyphens repeated to each column's width, then each data row formatted
identically to the header, every row newline-terminated. -/
def specEncode (data : List (List String)) : String :=
  String.mk
    (specRowLine data (data.headD []) ++ ['\n'] ++
      (['|', ' '] ++
        joinSepC [' ', '|', ' ']
          ((List.range (data.headD []).length).map
            (fun i => List.replicate (specColWidth data i) '-')) ++
        [' ', '|']) ++ ['\n'] ++
      (data.tail.map (fun r => specRowLine data r ++ ['\n'])).flatten)

theorem updateRowWidths_get? : ∀ (ws : List Nat) (row : List (List Char))
    (i : Nat), (updateRowWidths ws row).get? i =
      (ws.get? i).map (fun w => max w ((row.getD i []).length))
  | [], row, i => by cases row <;> rfl
  | w :: ws, [], i => by
    rw [show updateRowWidths (w :: ws) [] = w :: ws from rfl]
    cases i with
    | zero => simp
    | succ j => cases (ws.get? j) <;> simp
  | w :: ws, c :: cs, 0 => rfl
  | w :: ws, c :: cs, i + 1 => by
    rw [updateRowWidths]
    exact updateRowWidths_get? ws cs i

theorem foldl_updateRowWidths_get? : ∀ (rows : List (List (List Char)))
    (init : List Nat) (i : Nat),
    (rows.foldl updateRowWidths init).get? i =
      (init.get? i).map
        (fun w0 => rows.foldl (fun w row => max w ((row.getD i []).length)) w0)
  | [], init, i => by
    show init.get? i = (init.get? i).map (fun w0 => w0)
    cases init.get? i <;> rfl
  | r :: t, init, i => by
    rw [List.foldl_cons, foldl_updateRowWidths_get? t _ i,
      updateRowWidths_get?]
    cases init.get? i <;> rfl

theorem foldl_max_map (f : α → Nat) : ∀ (l : List α) (a : Nat),
    l.foldl (fun w x => max w (f x)) a = max a ((l.map f).foldr max 0)
  | [], a => by simp
  | x :: t, a => by
    rw [List.foldl_cons, foldl_max_map f t (max a (f x)), List.map_cons,
      List.foldr_cons, Nat.max_assoc]

theorem getD_map_data : ∀ (row : List String) (i : Nat),
    (row.map String.data).getD i [] = (row.getD i "").data
  | [], _ => rfl
  | c :: cs, 0 => rfl
  | c :: cs, i + 1 => getD_map_data cs i

theorem headD_map_data_length (data : List (List String)) :
    ((data.map (fun row => row.map String.data)).headD []).length =
      (data.headD []).length := by
  cases data <;> simp

theorem computeColWidths_spec (data : List (List String)) (i : Nat)
    (hi : i < (data.headD []).length) :
    (computeColWidths (data.map (fun row => row.map String.data))).get? i =
      some (specColWidth data i) := by
  have hrep : (List.replicate
      ((data.map (fun row => row.map String.data)).headD []).length
      (0 : Nat)).get? i = some 0 := by
    rw [List.get?_eq_getElem?]
    exact List.getElem?_replicate_of_lt (by rw [headD_map_data_length]; exact hi)
  rw [computeColWidths, List.get?_map, foldl_updateRowWidths_get?, hrep]
  simp only [Option.map_some']
  congr 1
  have hfold := foldl_max_map
    (fun rowC : List (List Char) => (rowC.getD i []).length)
    (data.map (fun row => row.map String.data)) 0
  simp only [] at hfold
  rw [hfold, Nat.zero_max, List.map_map]
  simp only [specColWidth]
  rw [Nat.max_comm]
  congr 1
  congr 1
  apply List.map_congr_left
  intro row _
  show ((row.map String.data).getD i []).length = (row.getD i "").data.length
  rw [getD_map_data]

theorem computeColWidths_eq_spec (data : List (List String)) :
    computeColWidths (data.map (fun row => row.map String.data)) =
      (List.range (data.headD []).length).map (specColWidth data) := by
  apply List.ext_get?
  intro n
  by_cases hn : n < (data.headD []).length
  · rw [computeColWidths_spec data n hn, List.get?_eq_getElem?,
      List.getElem?_map, List.getElem?_range hn]
    rfl
  · rw [List.get?_eq_none.mpr, List.get?_eq_none.mpr]
    · rw [List.length_map, List.length_range]; omega
    · rw [computeColWidths_length, headD_map_data_length]; omega

theorem computeColWidths_getD (data : List (List String)) (j : Nat)
    (hj : j < (data.headD []).length) :
    (computeColWidths (data.map (fun r => r.map String.data))).getD j 0 =
      specColWidth data j := by
  rw [List.getD_eq_getElem?_getD, ← List.get?_eq_getElem?,
    computeColWidths_spec data j hj]
  rfl

theorem mapWithIndex_map (f : Nat → β → γ) (g : α → β) :
    ∀ (l : List α) (s : Nat),
      mapWithIndex f s (l.map g) = mapWithIndex (fun i a => f i (g a)) s l
  | [], _ => rfl
  | a :: l, s => by
    rw [List.map_cons, mapWithIndex, mapWithIndex,
      mapWithIndex_map f g l (s + 1)]

theorem mapWithIndex_congr_get? (f g : Nat → α → β) (l : List α)
    (h : ∀ j a, l.get? j = some a → f j a = g j a) :
    mapWithIndex f 0 l = mapWithIndex g 0 l := by
  apply List.ext_get?
  intro j
  rw [mapWithIndex_get?, mapWithIndex_get?]
  cases hv : l.get? j with
  | none => rfl
  | some a =>
    show some (f (0 + j) a) = some (g (0 + j) a)
    rw [Nat.zero_add, h j a hv]

theorem formatRowC_spec (data : List (List String)) (row : List String)
    (hlen : row.length ≤ (data.headD []).length) :
    formatRowC (computeColWidths (data.map (fun r => r.map String.data)))
      (row.map String.data) = specRowLine data row := by
  rw [formatRowC, specRowLine]
  congr 1
  congr 1
  congr 1
  rw [mapWithIndex_map]
  apply mapWithIndex_congr_get?
  intro j cell hj
  have hjlt : j < row.length := by
    by_contra hge
    rw [List.get?_eq_none.mpr (by omega)] at hj
    exact Option.noConfusion hj
  rw [computeColWidths_getD data j (by omega)]

/-- C7: for every non-empty rectangular grid, `generateMarkdownTable`
produces exactly the text the specification describes: per-column widths
`max(3, maximum cell length in the column over all rows)`, left-aligned
space padding, `| cell | ... |` rows, a separator row of width-many hyphens,
and a newline after every row including the last. -/
theorem C7_encode_format (data : List (List String)) (hne : data ≠ [])
    (hrect : Rect data) :
    generateMarkdownTable data = specEncode data := by
  rw [generateMarkdownTable, specEncode]
  have hlen0 : ¬(data.map (fun row => row.map String.data)).length = 0 := by
    rw [List.length_map]
    intro h0
    exact hne (List.length_eq_zero.mp h0)
  have hhead : (data.map (fun row => row.map String.data)).headD [] =
      (data.headD []).map String.data := by
    cases data with
    | nil => exact absurd rfl hne
    | cons d t => rfl
  have htail : (data.map (fun row => row.map String.data)).tail =
      data.tail.map (fun row => row.map String.data) := by
    cases data <;> rfl
  have hsep : (computeColWidths
      (data.map (fun r => r.map String.data))).map
        (fun w => List.replicate w '-') =
      (List.range (data.headD []).length).map
        (fun i => List.replicate (specColWidth data i) '-') := by
    rw [computeColWidths_eq_spec, List.map_map]
    rfl
  have hbody : ((data.tail.map (fun row => row.map String.data)).map
      (fun r => formatRowC
        (computeColWidths (data.map (fun r2 => r2.map String.data))) r ++
          ['\n'])).flatten =
      (data.tail.map (fun r => specRowLine data r ++ ['\n'])).flatten := by
    rw [List.map_map]
    congr 1
    apply List.map_congr_left
    intro row hrow
    show formatRowC (computeColWidths (data.map (fun r2 => r2.map String.data)))
        (row.map String.data) ++ ['\n'] = specRowLine data row ++ ['\n']
    rw [formatRowC_spec data row
      (le_of_eq (hrect row (List.mem_of_mem_tail hrow)))]
  simp only [generateChars]
  rw [if_neg hlen0, hhead, htail, formatRowC_spec data (data.headD []) le_rfl,
    hsep, hbody]

/-- Witness for C7 at the canonical two-by-two grid. -/
theorem C7_encode_format_witness :
    ([["A", "B"], ["1", "2"]] : List (List String)) ≠ [] ∧
      Rect [["A", "B"], ["1", "2"]] ∧
      generateMarkdownTable [["A", "B"], ["1", "2"]] =
        specEncode [["A", "B"], ["1", "2"]] :=
  ⟨by decide, by decide,
    C7_encode_format [["A", "B"], ["1", "2"]] (by decide) (by decide)⟩

end MdTable
